import Mathlib

/-!
Verification of the tool-call coordinator of `codex-rs`:
`core/src/tools/parallel.rs` and the tool-result cache of
`core/src/state/session.rs`, via a shallow embedding in Lean.

Rust `String`/`&str` values are embedded as `List Char`; `Instant` and
`Duration` values are embedded as explicit `Nat` timestamps threaded through
the stateful operations; `HashMap` is embedded as an association list whose
key list is kept duplicate-free; `VecDeque` is embedded as `List`.
-/

set_option linter.unusedVariables false

namespace Codex

/-- Embedding of Rust strings as lists of characters. -/
abbrev Str := List Char

/-- Literal helper turning a Lean string literal into the `Str` embedding. -/
def strL (s : String) : Str := s.data

/-- Embedding of Rust `str::trim`: drop whitespace from both ends. -/
def trimStr (s : Str) : Str :=
  ((s.dropWhile Char.isWhitespace).reverse.dropWhile Char.isWhitespace).reverse

/-! ## Association-list embedding of `HashMap` -/

/-- Embedding of `HashMap::get`: first value stored under `key`. -/
def getA {α : Type} : List (Str × α) → Str → Option α
  | [], _ => none
  | (k, v) :: rest, key => if k = key then some v else getA rest key

/-- Embedding of `HashMap::contains_key`. -/
def containsA {α : Type} (m : List (Str × α)) (key : Str) : Bool :=
  (getA m key).isSome

/-- Embedding of `HashMap::insert`: replace the value when present, append otherwise. -/
def insertA {α : Type} : List (Str × α) → Str → α → List (Str × α)
  | [], k, v => [(k, v)]
  | (k', v') :: rest, k, v =>
    if k' = k then (k, v) :: rest else (k', v') :: insertA rest k v

/-- Embedding of `HashMap::remove`: drop the entry stored under the key. -/
def removeA {α : Type} : List (Str × α) → Str → List (Str × α)
  | [], _ => []
  | (k', v') :: rest, k =>
    if k' = k then rest else (k', v') :: removeA rest k

theorem getA_eq_none_of_not_mem {α : Type} {m : List (Str × α)} {k : Str}
    (h : k ∉ m.map Prod.fst) : getA m k = none := by
  induction m with
  | nil => rfl
  | cons p rest ih =>
    obtain ⟨k', v'⟩ := p
    simp only [List.map_cons, List.mem_cons] at h
    push_neg at h
    have hne : k' ≠ k := fun hk => h.1 hk.symm
    simp only [getA, if_neg hne]
    exact ih h.2

theorem mem_keys_of_getA_isSome {α : Type} {m : List (Str × α)} {k : Str}
    (h : (getA m k).isSome) : k ∈ m.map Prod.fst := by
  by_contra hmem
  rw [getA_eq_none_of_not_mem hmem] at h
  simp at h

theorem containsA_iff_mem_keys {α : Type} (m : List (Str × α)) (k : Str) :
    containsA m k = true ↔ k ∈ m.map Prod.fst := by
  constructor
  · intro h
    exact mem_keys_of_getA_isSome (by simpa [containsA] using h)
  · intro h
    induction m with
    | nil => simp at h
    | cons p rest ih =>
      obtain ⟨k', v'⟩ := p
      simp only [List.map_cons, List.mem_cons] at h
      by_cases hk : k' = k
      · simp [containsA, getA, hk]
      · simp only [containsA, getA, if_neg hk]
        exact ih (h.resolve_left (fun hh => hk hh.symm))

theorem getA_insertA_self {α : Type} (m : List (Str × α)) (k : Str) (v : α) :
    getA (insertA m k v) k = some v := by
  induction m with
  | nil => simp [insertA, getA]
  | cons p rest ih =>
    obtain ⟨k', v'⟩ := p
    by_cases hk : k' = k
    · simp [insertA, hk, getA]
    · simp [insertA, hk, getA, ih]

theorem getA_insertA_ne {α : Type} (m : List (Str × α)) (k k' : Str) (v : α)
    (h : k' ≠ k) : getA (insertA m k v) k' = getA m k' := by
  have hne : k ≠ k' := h.symm
  induction m with
  | nil => simp [insertA, getA, if_neg hne]
  | cons p rest ih =>
    obtain ⟨k₀, v₀⟩ := p
    by_cases hk : k₀ = k
    · subst hk
      simp only [insertA, if_pos rfl, getA, if_neg hne]
    · simp only [insertA, if_neg hk, getA]
      by_cases hk' : k₀ = k'
      · simp [if_pos hk']
      · simp [if_neg hk', ih]

theorem getA_removeA_ne {α : Type} (m : List (Str × α)) (k k' : Str)
    (h : k' ≠ k) : getA (removeA m k) k' = getA m k' := by
  induction m with
  | nil => simp [removeA]
  | cons p rest ih =>
    obtain ⟨k₀, v₀⟩ := p
    by_cases hk : k₀ = k
    · have hne : ¬k₀ = k' := fun hh => h (hh.symm.trans hk)
      simp only [removeA, if_pos hk, getA, if_neg hne]
    · simp only [removeA, if_neg hk, getA]
      by_cases hk' : k₀ = k'
      · simp [if_pos hk']
      · simp [if_neg hk', ih]

theorem keys_removeA_sublist {α : Type} (m : List (Str × α)) (k : Str) :
    ((removeA m k).map Prod.fst).Sublist (m.map Prod.fst) := by
  induction m with
  | nil => simp [removeA]
  | cons p rest ih =>
    obtain ⟨k₀, v₀⟩ := p
    by_cases hk : k₀ = k
    · simp only [removeA, if_pos hk, List.map_cons]
      exact (List.sublist_cons_self _ _)
    · simp only [removeA, if_neg hk, List.map_cons]
      exact ih.cons₂ _

theorem keys_removeA_nodup {α : Type} {m : List (Str × α)} (k : Str)
    (h : (m.map Prod.fst).Nodup) : ((removeA m k).map Prod.fst).Nodup :=
  (keys_removeA_sublist m k).nodup h

theorem getA_removeA_self {α : Type} {m : List (Str × α)} {k : Str}
    (h : (m.map Prod.fst).Nodup) : getA (removeA m k) k = none := by
  induction m with
  | nil => simp [removeA, getA]
  | cons p rest ih =>
    obtain ⟨k₀, v₀⟩ := p
    simp only [List.map_cons, List.nodup_cons] at h
    by_cases hk : k₀ = k
    · subst hk
      simp only [removeA, if_pos rfl]
      exact getA_eq_none_of_not_mem h.1
    · simp only [removeA, if_neg hk, getA, if_neg hk]
      exact ih h.2

theorem keys_insertA {α : Type} (m : List (Str × α)) (k : Str) (v : α) :
    (insertA m k v).map Prod.fst =
      if k ∈ m.map Prod.fst then m.map Prod.fst else m.map Prod.fst ++ [k] := by
  induction m with
  | nil =>
    simp only [insertA, List.map_nil, List.map_cons]
    rw [if_neg (List.not_mem_nil k)]
    simp
  | cons p rest ih =>
    obtain ⟨k₀, v₀⟩ := p
    by_cases hk : k₀ = k
    · subst hk
      simp only [insertA, if_pos rfl, List.map_cons]
      rw [if_pos (List.mem_cons_self _ _)]
      simp
    · have hne : k ≠ k₀ := fun hh => hk hh.symm
      simp only [insertA, if_neg hk, List.map_cons, ih]
      by_cases hm : k ∈ rest.map Prod.fst
      · simp [hm, hne]
      · simp [hm, hne]

theorem keys_insertA_nodup {α : Type} {m : List (Str × α)} (k : Str) (v : α)
    (h : (m.map Prod.fst).Nodup) : ((insertA m k v).map Prod.fst).Nodup := by
  rw [keys_insertA]
  by_cases hm : k ∈ m.map Prod.fst
  · simpa [hm] using h
  · simp only [hm, if_false, List.nodup_append]
    refine ⟨h, by simp, ?_⟩
    intro a ha
    simp only [List.mem_singleton]
    intro hak
    exact hm (hak ▸ ha)

/-! ## Protocol data model

The result and payload shapes live in the `codex-protocol` crate, outside the
two sources under verification; they are reconstructed here from the spec's
closed variant sets (§3 of the spec) together with how `parallel.rs` pattern
matches on them. -/

/-- Modelled from the spec: MCP tool success value (the `value` half of
`McpOutput.outcome`); its content is opaque to the coordinator. -/
structure CallToolResult where
  content : Str
deriving DecidableEq

/-- Modelled from the spec: the body of a function-call output; opaque text as
far as the coordinator is concerned. -/
inductive FunctionCallOutputBody where
  | text (content : Str)
deriving DecidableEq

/-- Modelled from the spec: `FunctionOutput{body, success: optional-bool}`.
`Default::default()` gives `success = none` and an empty text body. -/
structure FunctionCallOutputPayload where
  body : FunctionCallOutputBody
  success : Option Bool
deriving DecidableEq

deriving instance DecidableEq for Except

/-- Modelled from the spec: the closed `ToolResult` variant set
(`FunctionOutput`, `McpOutput` with a `Result` outcome, `CustomOutput`,
`Message`), with the `call_id` fields `parallel.rs` reads and rewrites. -/
inductive ResponseInputItem where
  | functionCallOutput (call_id : Str) (output : FunctionCallOutputPayload)
  | mcpToolCallOutput (call_id : Str) (result : Except Str CallToolResult)
  | customToolCallOutput (call_id : Str) (output : Str)
  | message (role : Str) (content : Str)
deriving DecidableEq

/-- The call id carried by a router result (`Message` items carry none). -/
def ResponseInputItem.callId : ResponseInputItem → Option Str
  | .functionCallOutput call_id _ => some call_id
  | .mcpToolCallOutput call_id _ => some call_id
  | .customToolCallOutput call_id _ => some call_id
  | .message _ _ => none

/-- Modelled from the spec: `LocalShell` payload parameters
(`command`, optional `workdir`, optional `timeout`). -/
structure ShellToolCallParams where
  command : List Str
  workdir : Option Str
  timeout_ms : Option Nat
deriving DecidableEq

/-- Modelled from the spec: the closed `Payload` variant set. -/
inductive ToolPayload where
  | function (arguments : Str)
  | custom (input : Str)
  | localShell (params : ShellToolCallParams)
  | mcp (server : Str) (tool : Str) (raw_arguments : Str)
deriving DecidableEq

/-- Modelled from the spec: a tool call
`{tool_name, call_id, payload}`. -/
structure ToolCall where
  tool_name : Str
  call_id : Str
  payload : ToolPayload
deriving DecidableEq

/-! ## `parallel.rs`: result classification and call-id rewrite -/

/-- Embedding of `should_cache_tool_response` (parallel.rs:327-334). -/
def should_cache_tool_response (response : ResponseInputItem) : Bool :=
  match response with
  | .functionCallOutput _ output => output.success.getD true
  | .mcpToolCallOutput _ result => result.isOk
  | .customToolCallOutput _ _ => true
  | .message _ _ => false

/-- Embedding of `remap_response_call_id` (parallel.rs:336-358). -/
def remap_response_call_id (response : ResponseInputItem) (call_id : Str) :
    ResponseInputItem :=
  match response with
  | .functionCallOutput _ output => .functionCallOutput call_id output
  | .mcpToolCallOutput _ result => .mcpToolCallOutput call_id result
  | .customToolCallOutput _ output => .customToolCallOutput call_id output
  | .message role content => .message role content

/-- Embedding of `tool_supports_turn_cache` (parallel.rs:291-309). -/
def tool_supports_turn_cache (tool_name : Str) : Bool :=
  tool_name = strL "search_query" ∨
  tool_name = strL "image_query" ∨
  tool_name = strL "weather" ∨
  tool_name = strL "sports" ∨
  tool_name = strL "finance" ∨
  tool_name = strL "time" ∨
  tool_name = strL "list_mcp_resources" ∨
  tool_name = strL "list_mcp_resource_templates" ∨
  tool_name = strL "read_mcp_resource" ∨
  tool_name = strL "search_tool_bm25" ∨
  tool_name = strL "read_file" ∨
  tool_name = strL "list_dir" ∨
  tool_name = strL "grep_files" ∨
  tool_name = strL "view_image"

/-- Embedding of `tool_supports_session_cache` (parallel.rs:311-325). -/
def tool_supports_session_cache (tool_name : Str) : Bool :=
  tool_name = strL "search_query" ∨
  tool_name = strL "image_query" ∨
  tool_name = strL "weather" ∨
  tool_name = strL "sports" ∨
  tool_name = strL "finance" ∨
  tool_name = strL "time" ∨
  tool_name = strL "list_mcp_resources" ∨
  tool_name = strL "list_mcp_resource_templates" ∨
  tool_name = strL "read_mcp_resource" ∨
  tool_name = strL "search_tool_bm25"

/-! ## `session.rs`: the session-scoped tool-result cache

`Instant::now()` is embedded as an explicit `now : Nat` argument on each
operation, and `Duration` as a `Nat` (`Instant::duration_since` saturates at
zero exactly like truncated `Nat` subtraction). -/

/-- Embedding of `CachedToolResult` (session.rs:42-46). -/
structure CachedToolResult where
  stored_at : Nat
  response : ResponseInputItem
deriving DecidableEq

/-- The tool-result-cache part of `SessionState` (session.rs:38-39): every
other field of the Rust struct is unrelated session bookkeeping that the
cached-tool-result operations never touch. -/
structure SessionState where
  tool_result_cache : List (Str × CachedToolResult)
  tool_result_cache_order : List Str
deriving DecidableEq

/-- Embedding of `SessionState::new` (session.rs:48-67) restricted to the
cache fields: both start empty. -/
def SessionState.new : SessionState :=
  { tool_result_cache := [], tool_result_cache_order := [] }

/-- Embedding of `SessionState::evict_expired_tool_results` (session.rs:259-271). -/
def evict_expired_tool_results (s : SessionState) (now : Nat) (max_age : Nat) :
    SessionState :=
  if max_age = 0 then
    { tool_result_cache := [], tool_result_cache_order := [] }
  else
    let cache := s.tool_result_cache.filter
      (fun entry => decide (now - entry.2.stored_at ≤ max_age))
    { tool_result_cache := cache,
      tool_result_cache_order :=
        s.tool_result_cache_order.filter (fun key => containsA cache key) }

/-- Embedding of `SessionState::get_cached_tool_result` (session.rs:214-223):
returns the looked-up clone together with the post-eviction state. -/
def get_cached_tool_result (s : SessionState) (now : Nat) (key : Str)
    (max_age : Nat) : Option ResponseInputItem × SessionState :=
  let s' := evict_expired_tool_results s now max_age
  ((getA s'.tool_result_cache key).map (fun entry => entry.response), s')

/-- Embedding of the bounded-eviction loop of `put_cached_tool_result`
(session.rs:252-256): while the order sequence is longer than `max_entries`,
pop the front key and remove its entry. -/
def put_evict_loop (cache : List (Str × CachedToolResult)) (max_entries : Nat) :
    List Str → List (Str × CachedToolResult) × List Str
  | [] => (cache, [])
  | oldest :: rest =>
    if rest.length + 1 > max_entries then
      put_evict_loop (removeA cache oldest) max_entries rest
    else (cache, oldest :: rest)

/-- Embedding of `SessionState::put_cached_tool_result` (session.rs:225-257). -/
def put_cached_tool_result (s : SessionState) (now : Nat) (key : Str)
    (response : ResponseInputItem) (max_entries : Nat) : SessionState :=
  if max_entries = 0 then
    { tool_result_cache := [], tool_result_cache_order := [] }
  else
    let was_present := containsA s.tool_result_cache key
    let cache := insertA s.tool_result_cache key
      { stored_at := now, response := response }
    let order :=
      if was_present then
        s.tool_result_cache_order.filter (fun existing => existing ≠ key)
      else s.tool_result_cache_order
    let trimmed := put_evict_loop cache max_entries (order ++ [key])
    { tool_result_cache := trimmed.1, tool_result_cache_order := trimmed.2 }

/-! ## `parallel.rs`: abort synthesis and single-flight publication -/

/-- Modelled from the spec: the router's error taxonomy (`FunctionCallError`
lives in `function_tool.rs`, outside the sources under verification); the
coordinator only distinguishes the fatal kind from every other kind. -/
inductive FunctionCallError where
  | fatal (message : Str)
  | respondToModel (message : Str)
deriving DecidableEq

/-- Modelled from the spec: one-decimal fixed rendering of the elapsed
seconds, standing in for Rust's float formatting of `{secs:.1}`; elapsed
wall-clock seconds are embedded as rationals. -/
def fmtSecs1 (secs : ℚ) : Str :=
  let tenths : Int := Rat.floor (10 * secs + 1 / 2)
  (toString (tenths / 10)).data ++ '.' :: (toString (tenths % 10)).data

/-- Embedding of the elapsed-seconds computation at both abort sites
(parallel.rs:163 and parallel.rs:185): `elapsed().as_secs_f32().max(0.1)`. -/
def abort_elapsed_secs (elapsed : ℚ) : ℚ := max elapsed (1 / 10)

/-- Embedding of `ToolCallRuntime::abort_message` (parallel.rs:281-288). -/
def abort_message (call : ToolCall) (secs : ℚ) : Str :=
  if call.tool_name = strL "shell" ∨ call.tool_name = strL "container.exec" ∨
      call.tool_name = strL "local_shell" ∨ call.tool_name = strL "shell_command" ∨
      call.tool_name = strL "unified_exec" then
    strL "Wall time: " ++ fmtSecs1 secs ++ strL " seconds\naborted by user"
  else
    strL "aborted by user after " ++ fmtSecs1 secs ++ strL "s"

/-- Embedding of `ToolCallRuntime::aborted_response` (parallel.rs:261-279). -/
def aborted_response (call : ToolCall) (secs : ℚ) : ResponseInputItem :=
  match call.payload with
  | .custom _ => .customToolCallOutput call.call_id (abort_message call secs)
  | .mcp _ _ _ => .mcpToolCallOutput call.call_id (.error (abort_message call secs))
  | _ =>
    .functionCallOutput call.call_id
      { body := .text (abort_message call secs), success := none }

/-- Embedding of the leader's shareable value (parallel.rs:232-238): `None`
when cancelled, otherwise the result only when it is `Ok` and cache-eligible. -/
def publish_shareable (cancelled : Bool)
    (result : Except FunctionCallError ResponseInputItem) :
    Option ResponseInputItem :=
  if cancelled then none
  else
    match result with
    | .ok response =>
      if should_cache_tool_response response then some response else none
    | .error _ => none

/-- Embedding of the leader's publication step (parallel.rs:231-241) as one
transition: the value sent on the watch channel paired with the in-flight
registry after the slot's unconditional removal. -/
def leader_publish (turn_inflight_cache : List (Str × Option ResponseInputItem))
    (cache_key : Str) (cancelled : Bool)
    (result : Except FunctionCallError ResponseInputItem) :
    Option ResponseInputItem × List (Str × Option ResponseInputItem) :=
  (publish_shareable cancelled result, removeA turn_inflight_cache cache_key)

/-! ## Claim C3 -/

/-- Claim C3: `should_cache_tool_response` returns `true` exactly for a
`FunctionOutput` whose `success` is not `Some(false)`, an `McpOutput` holding
a success outcome, or a `CustomOutput`; it returns `false` for every
`Message` and for every `McpOutput` holding an error. -/
theorem should_cache_classification (response : ResponseInputItem) :
    (should_cache_tool_response response = true ↔
      ((∃ id output, response = .functionCallOutput id output ∧
          output.success ≠ some false) ∨
        (∃ id value, response = .mcpToolCallOutput id (.ok value)) ∨
        (∃ id output, response = .customToolCallOutput id output))) ∧
    (∀ role content,
      should_cache_tool_response (.message role content) = false) ∧
    (∀ id err,
      should_cache_tool_response (.mcpToolCallOutput id (.error err)) = false) := by
  refine ⟨?_, fun role content => rfl, fun id err => rfl⟩
  cases response with
  | functionCallOutput id output =>
    obtain ⟨body, success⟩ := output
    constructor
    · intro h
      refine Or.inl ⟨id, ⟨body, success⟩, rfl, ?_⟩
      cases success with
      | none => simp
      | some b =>
        cases b
        · simp [should_cache_tool_response] at h
        · simp
    · rintro (⟨i2, o2, heq, hsucc⟩ | ⟨i2, v2, heq⟩ | ⟨i2, o2, heq⟩)
      · cases heq
        cases success with
        | none => rfl
        | some b =>
          cases b
          · exact absurd rfl hsucc
          · rfl
      · cases heq
      · cases heq
  | mcpToolCallOutput id result =>
    cases result with
    | ok value =>
      constructor
      · intro _
        exact Or.inr (Or.inl ⟨id, value, rfl⟩)
      · intro _
        rfl
    | error err =>
      constructor
      · intro h
        exact absurd h (by simp [should_cache_tool_response, Except.isOk,
          Except.toBool])
      · rintro (⟨i2, o2, heq, hsucc⟩ | ⟨i2, v2, heq⟩ | ⟨i2, o2, heq⟩) <;> cases heq
  | customToolCallOutput id output =>
    constructor
    · intro _
      exact Or.inr (Or.inr ⟨id, output, rfl⟩)
    · intro _
      rfl
  | message role content =>
    constructor
    · intro h
      cases h
    · rintro (⟨i2, o2, heq, hsucc⟩ | ⟨i2, v2, heq⟩ | ⟨i2, o2, heq⟩) <;> cases heq

/-! ## Claim C4 -/

/-- Claim C4: after the leader's execution completes, the slot value published
to followers is `none` when the call was cancelled, `none` when the result was
an error or not cache-eligible, and `some result` exactly when the result is
cache-eligible; and in every case the slot key is removed from the in-flight
registry. -/
theorem leader_publish_spec
    (turn_inflight_cache : List (Str × Option ResponseInputItem))
    (cache_key : Str) (cancelled : Bool)
    (result : Except FunctionCallError ResponseInputItem)
    (hkeys : (turn_inflight_cache.map Prod.fst).Nodup) :
    (cancelled = true →
      (leader_publish turn_inflight_cache cache_key cancelled result).1 = none) ∧
    (∀ err, result = .error err →
      (leader_publish turn_inflight_cache cache_key cancelled result).1 = none) ∧
    (∀ response,
      (leader_publish turn_inflight_cache cache_key cancelled result).1 =
          some response ↔
        (cancelled = false ∧ result = .ok response ∧
          should_cache_tool_response response = true)) ∧
    getA (leader_publish turn_inflight_cache cache_key cancelled result).2
      cache_key = none := by
  refine ⟨?_, ?_, ?_, getA_removeA_self hkeys⟩
  · intro hc
    simp [leader_publish, publish_shareable, hc]
  · intro err herr
    cases cancelled <;> simp [leader_publish, publish_shareable, herr]
  · intro response
    cases cancelled with
    | true => simp [leader_publish, publish_shareable]
    | false =>
      cases result with
      | error err => simp [leader_publish, publish_shareable]
      | ok r =>
        simp only [leader_publish, publish_shareable]
        rw [if_neg (by decide : ¬(false = true))]
        by_cases hc : should_cache_tool_response r = true
        · rw [if_pos hc]
          constructor
          · intro h
            injection h with h
            exact ⟨by trivial, by rw [h], by rw [← h]; exact hc⟩
          · rintro ⟨-, hr, -⟩
            injection hr with hr
            rw [hr]
        · rw [if_neg hc]
          constructor
          · intro h
            cases h
          · rintro ⟨-, hr, hcache⟩
            injection hr with hr
            exact absurd (hr ▸ hcache) hc

/-- Witness for claim C4: the general theorem applied to a concrete registry,
key and successful cache-eligible result. -/
theorem leader_publish_spec_witness :
    (([(strL "k", (none : Option ResponseInputItem))].map Prod.fst).Nodup ∧
      getA
        (leader_publish [(strL "k", none)] (strL "k") false
          (.ok (.customToolCallOutput (strL "id") (strL "out")))).2
        (strL "k") = none) := by
  refine ⟨by decide, ?_⟩
  exact (leader_publish_spec [(strL "k", none)] (strL "k") false
    (.ok (.customToolCallOutput (strL "id") (strL "out"))) (by decide)).2.2.2

/-! ## JSON model and canonicalization -/

/-- Modelled from the spec: JSON values (`serde_json::Value`), with an
object's fields kept as an ordered association list; numbers are restricted
to integers, which none of the canonicalization claims exercise. -/
inductive Json where
  | null : Json
  | bool (b : Bool) : Json
  | num (n : Int) : Json
  | str (s : Str) : Json
  | arr (items : List Json) : Json
  | obj (fields : List (Str × Json)) : Json

theorem sizeOf_getA_lt {fs : List (Str × Json)} {k : Str} {v : Json}
    (h : getA fs k = some v) : sizeOf v < sizeOf fs := by
  induction fs with
  | nil => cases h
  | cons p rest ih =>
    obtain ⟨k0, v0⟩ := p
    simp only [getA] at h
    by_cases hk : k0 = k
    · rw [if_pos hk] at h
      injection h with h
      subst h
      simp only [List.cons.sizeOf_spec, Prod.mk.sizeOf_spec]
      omega
    · rw [if_neg hk] at h
      have := ih h
      simp only [List.cons.sizeOf_spec]
      omega

/-- Embedding of Rust's `keys.sort()`: sort the key list by the lexicographic
order on strings (UTF-8 byte order and code-point order agree). -/
def sortKeys (keys : List Str) : List Str :=
  List.insertionSort (fun a b => a ≤ b) keys

mutual

/-- Embedding of `canonicalize_json_value` (parallel.rs:395-413): sort every
object's keys recursively; arrays keep element order; leaves are returned
unchanged. -/
def canonicalize_json_value : Json → Json
  | .obj object =>
    .obj (canonicalize_fields object (sortKeys (object.map Prod.fst)) [])
  | .arr items => .arr (canonicalize_list items)
  | value => value
termination_by v => (sizeOf v, 0)
decreasing_by
  · exact Prod.Lex.left _ _ (by simp only [Json.obj.sizeOf_spec]; omega)
  · exact Prod.Lex.left _ _ (by simp only [Json.arr.sizeOf_spec]; omega)

/-- The key loop of `canonicalize_json_value` (parallel.rs:401-405): insert
each sorted key's canonicalized child into the accumulator map. -/
def canonicalize_fields (object : List (Str × Json)) (keys : List Str)
    (canonical : List (Str × Json)) : List (Str × Json) :=
  match keys with
  | [] => canonical
  | key :: rest =>
    match hchild : getA object key with
    | some child =>
      canonicalize_fields object rest
        (insertA canonical key (canonicalize_json_value child))
    | none => canonicalize_fields object rest canonical
termination_by (sizeOf object, keys.length + 1)
decreasing_by
  · exact Prod.Lex.left _ _ (sizeOf_getA_lt hchild)
  · exact Prod.Lex.right _ (by simp only [List.length_cons]; omega)
  · exact Prod.Lex.right _ (by simp only [List.length_cons]; omega)

/-- Pointwise canonicalization of an array's elements (parallel.rs:408-410). -/
def canonicalize_list : List Json → List Json
  | [] => []
  | x :: xs => canonicalize_json_value x :: canonicalize_list xs
termination_by xs => (sizeOf xs, 0)
decreasing_by
  · exact Prod.Lex.left _ _ (by simp only [List.cons.sizeOf_spec]; omega)
  · exact Prod.Lex.left _ _ (by simp only [List.cons.sizeOf_spec]; omega)

end

/-- Modelled from the spec: JSON string escaping for serialization; only the
quote and backslash escapes matter to the canonicalization claims. -/
def escape_json_string (s : Str) : Str :=
  s.foldr
    (fun c acc =>
      if c = '"' then '\\' :: '"' :: acc
      else if c = '\\' then '\\' :: '\\' :: acc
      else c :: acc)
    []

mutual

/-- Modelled from the spec: compact serialization of a JSON value
(`serde_json::Value::to_string`), producing the canonical form's text. -/
def render_json : Json → Str
  | .null => strL "null"
  | .bool b => if b then strL "true" else strL "false"
  | .num n => (toString n).data
  | .str s => '"' :: (escape_json_string s ++ ['"'])
  | .arr items => '[' :: (render_json_list items ++ [']'])
  | .obj fields => '\x7b' :: (render_json_fields fields ++ ['\x7d'])
termination_by v => sizeOf v
decreasing_by
  · simp only [Json.arr.sizeOf_spec]; omega
  · simp only [Json.obj.sizeOf_spec]; omega

/-- Comma-separated rendering of array elements. -/
def render_json_list : List Json → Str
  | [] => []
  | [x] => render_json x
  | x :: xs => render_json x ++ (',' :: render_json_list xs)
termination_by xs => sizeOf xs
decreasing_by
  · simp only [List.cons.sizeOf_spec]; omega
  · simp only [List.cons.sizeOf_spec]; omega
  · simp only [List.cons.sizeOf_spec]; omega

/-- Comma-separated rendering of object fields as quoted key, colon, value. -/
def render_json_fields : List (Str × Json) → Str
  | [] => []
  | [(k, v)] => '"' :: (escape_json_string k ++ ('"' :: (':' :: render_json v)))
  | (k, v) :: rest =>
    ('"' :: (escape_json_string k ++ ('"' :: (':' :: render_json v)))) ++
      (',' :: render_json_fields rest)
termination_by fs => sizeOf fs
decreasing_by
  · simp only [List.cons.sizeOf_spec, Prod.mk.sizeOf_spec]; omega
  · simp only [List.cons.sizeOf_spec, Prod.mk.sizeOf_spec]; omega
  · simp only [List.cons.sizeOf_spec, Prod.mk.sizeOf_spec]; omega

end

mutual

/-- Well-formed JSON: every object's field list has duplicate-free keys, as
holds of every value a JSON parser produces from a map with unique keys. -/
def json_wf : Json → Bool
  | .obj fields => decide ((fields.map Prod.fst).Nodup) && json_wf_fields fields
  | .arr items => json_wf_list items
  | _ => true
termination_by v => sizeOf v
decreasing_by
  · simp only [Json.obj.sizeOf_spec]; omega
  · simp only [Json.arr.sizeOf_spec]; omega

/-- Well-formedness of every element of an array. -/
def json_wf_list : List Json → Bool
  | [] => true
  | x :: xs => json_wf x && json_wf_list xs
termination_by xs => sizeOf xs
decreasing_by
  · simp only [List.cons.sizeOf_spec]; omega
  · simp only [List.cons.sizeOf_spec]; omega

/-- Well-formedness of every value of an object's field list. -/
def json_wf_fields : List (Str × Json) → Bool
  | [] => true
  | (_, v) :: rest => json_wf v && json_wf_fields rest
termination_by fs => sizeOf fs
decreasing_by
  · simp only [List.cons.sizeOf_spec, Prod.mk.sizeOf_spec]; omega
  · simp only [List.cons.sizeOf_spec]; omega

end

mutual

/-- Key-order equivalence of JSON values: equal leaves, pointwise-equivalent
arrays (element order preserved), and objects equal up to a permutation of
the field list with equivalent values under equal keys — Claim C1's notion of
two JSON texts that differ only by the order of keys inside objects. -/
def KeyPerm : Json → Json → Prop
  | .null, .null => True
  | .bool a, .bool b => a = b
  | .num a, .num b => a = b
  | .str a, .str b => a = b
  | .arr xs, .arr ys => KeyPermList xs ys
  | .obj fs, .obj gs => ∃ l, KeyPermFields fs l ∧ l.Perm gs
  | _, _ => False
termination_by a _ => sizeOf a
decreasing_by
  · simp only [Json.arr.sizeOf_spec]; omega
  · simp only [Json.obj.sizeOf_spec]; omega

/-- Pointwise key-order equivalence of array elements. -/
def KeyPermList : List Json → List Json → Prop
  | [], [] => True
  | x :: xs, y :: ys => KeyPerm x y ∧ KeyPermList xs ys
  | _, _ => False
termination_by as _ => sizeOf as
decreasing_by
  · simp only [List.cons.sizeOf_spec]; omega
  · simp only [List.cons.sizeOf_spec]; omega

/-- Pointwise key-order equivalence of field lists: equal keys in equal
positions, equivalent values. -/
def KeyPermFields : List (Str × Json) → List (Str × Json) → Prop
  | [], [] => True
  | (k, v) :: fs, (k2, w) :: gs => k = k2 ∧ KeyPerm v w ∧ KeyPermFields fs gs
  | _, _ => False
termination_by as _ => sizeOf as
decreasing_by
  · simp only [List.cons.sizeOf_spec, Prod.mk.sizeOf_spec]; omega
  · simp only [List.cons.sizeOf_spec]; omega

end

/-! ## The cache-key builder -/

/-- Embedding of `canonical_json_or_raw` (parallel.rs:389-393), parameterized
by the JSON parse function (`serde_json::from_str`, an external library
call): a parseable argument text is canonicalized and re-serialized, an
unparseable one degrades to its trimmed raw text. -/
def canonical_json_or_raw (parse : Str → Option Json) (raw : Str) : Str :=
  match parse raw with
  | some value => render_json (canonicalize_json_value value)
  | none => trimStr raw

/-- Embedding of the `command.join("\u{1f}")` component of local-shell keys. -/
def joinUnitSep : List Str → Str
  | [] => []
  | [t] => t
  | t :: u :: rest => t ++ ('\x1f' :: joinUnitSep (u :: rest))

/-- Embedding of `tool_call_cache_key` (parallel.rs:360-387), parameterized
by the JSON parse function used by `canonical_json_or_raw`. -/
def tool_call_cache_key (parse : Str → Option Json) (call : ToolCall) : Str :=
  match call.payload with
  | .function arguments =>
    call.tool_name ++ ('|' :: (strL "fn" ++ ('|' ::
      canonical_json_or_raw parse arguments)))
  | .custom input =>
    call.tool_name ++ ('|' :: (strL "custom" ++ ('|' :: trimStr input)))
  | .localShell params =>
    call.tool_name ++ ('|' :: (strL "local_shell" ++ ('|' ::
      (joinUnitSep params.command ++ ('|' :: ((params.workdir.getD []) ++
        ('|' :: (toString (params.timeout_ms.getD 0)).data)))))))
  | .mcp server tool raw_arguments =>
    call.tool_name ++ ('|' :: (strL "mcp" ++ ('|' :: (server ++ ('|' ::
      (tool ++ ('|' :: canonical_json_or_raw parse raw_arguments)))))))

/-! ## Session-cache lemmas (claims C6, C7, C8) -/

theorem put_evict_loop_eq (max_entries : Nat) :
    ∀ (order : List Str) (cache : List (Str × CachedToolResult)),
    put_evict_loop cache max_entries order =
      ((order.take (order.length - max_entries)).foldl removeA cache,
        order.drop (order.length - max_entries)) := by
  intro order
  induction order with
  | nil =>
    intro cache
    simp [put_evict_loop]
  | cons oldest rest ih =>
    intro cache
    rw [put_evict_loop]
    by_cases hlen : rest.length + 1 > max_entries
    · rw [if_pos hlen, ih]
      have h1 : (oldest :: rest).length - max_entries =
          (rest.length - max_entries) + 1 := by
        simp only [List.length_cons]
        omega
      rw [h1, List.take_succ_cons, List.drop_succ_cons, List.foldl_cons]
    · rw [if_neg hlen]
      have h0 : (oldest :: rest).length - max_entries = 0 := by
        simp only [List.length_cons]
        omega
      rw [h0, List.take_zero, List.drop_zero, List.foldl_nil]

theorem removeA_of_getA_none {α : Type} {m : List (Str × α)} {k : Str}
    (h : getA m k = none) : removeA m k = m := by
  induction m with
  | nil => rfl
  | cons p rest ih =>
    obtain ⟨k0, v0⟩ := p
    simp only [getA] at h
    by_cases hk : k0 = k
    · rw [if_pos hk] at h
      cases h
    · rw [if_neg hk] at h
      simp only [removeA, if_neg hk]
      rw [ih h]

theorem getA_removeA_none {α : Type} {m : List (Str × α)} {k k' : Str}
    (h : getA m k = none) : getA (removeA m k') k = none := by
  by_cases hk : k = k'
  · subst hk
    by_cases hc : getA m k = none
    · rw [removeA_of_getA_none hc]
      exact hc
    · exact absurd h hc
  · rw [getA_removeA_ne _ _ _ hk]
    exact h

theorem getA_foldl_removeA_not_mem {α : Type} {ks : List Str} {k : Str}
    (h : k ∉ ks) :
    ∀ (cache : List (Str × α)),
    getA (ks.foldl removeA cache) k = getA cache k := by
  induction ks with
  | nil =>
    intro cache
    rfl
  | cons k0 rest ih =>
    intro cache
    simp only [List.mem_cons] at h
    push_neg at h
    simp only [List.foldl_cons]
    rw [ih h.2, getA_removeA_ne _ _ _ h.1]

theorem getA_foldl_removeA_stays_none {α : Type} {ks : List Str} {k : Str} :
    ∀ (cache : List (Str × α)), getA cache k = none →
    getA (ks.foldl removeA cache) k = none := by
  induction ks with
  | nil =>
    intro cache h
    exact h
  | cons k0 rest ih =>
    intro cache h
    simp only [List.foldl_cons]
    exact ih _ (getA_removeA_none h)

theorem keys_foldl_removeA_nodup {α : Type} {ks : List Str} :
    ∀ {cache : List (Str × α)}, (cache.map Prod.fst).Nodup →
    ((ks.foldl removeA cache).map Prod.fst).Nodup := by
  induction ks with
  | nil =>
    intro cache h
    exact h
  | cons k0 rest ih =>
    intro cache h
    simp only [List.foldl_cons]
    exact ih (keys_removeA_nodup k0 h)

theorem getA_foldl_removeA_mem {α : Type} {ks : List Str} {k : Str} :
    ∀ {cache : List (Str × α)}, (cache.map Prod.fst).Nodup → k ∈ ks →
    getA (ks.foldl removeA cache) k = none := by
  induction ks with
  | nil =>
    intro cache _ h
    cases h
  | cons k0 rest ih =>
    intro cache hnd h
    simp only [List.foldl_cons]
    rcases List.mem_cons.1 h with h | h
    · subst h
      exact getA_foldl_removeA_stays_none _ (getA_removeA_self hnd)
    · exact ih (keys_removeA_nodup k0 hnd) h

theorem containsA_insertA {α : Type} (m : List (Str × α)) (k k' : Str) (v : α) :
    containsA (insertA m k v) k' = true ↔ (k' = k ∨ containsA m k' = true) := by
  by_cases hk : k' = k
  · subst hk
    simp [containsA, getA_insertA_self]
  · rw [containsA, getA_insertA_ne _ _ _ _ hk]
    simp [containsA, hk]

theorem getA_filter_bind {q : Str × CachedToolResult → Bool} :
    ∀ {m : List (Str × CachedToolResult)}, (m.map Prod.fst).Nodup → ∀ (k : Str),
    getA (m.filter q) k =
      (getA m k).bind (fun v => if q (k, v) then some v else none) := by
  intro m
  induction m with
  | nil =>
    intro _ k
    rfl
  | cons p rest ih =>
    intro hnd k
    obtain ⟨k0, v0⟩ := p
    simp only [List.map_cons, List.nodup_cons] at hnd
    by_cases hk : k0 = k
    · subst hk
      by_cases hq : q (k0, v0)
      · simp only [List.filter_cons, hq, if_true, getA, if_pos rfl]
        simp [hq]
      · simp only [List.filter_cons, hq, if_false]
        have hnone : getA (rest.filter q) k0 = none := by
          apply getA_eq_none_of_not_mem
          intro hmem
          exact hnd.1 (((rest.filter_sublist).map Prod.fst).subset hmem)
        simp only [getA, if_pos rfl]
        simp [hnone, hq]
    · by_cases hq : q (k0, v0)
      · simp only [List.filter_cons, hq, if_true, getA, if_neg hk]
        exact ih hnd.2 k
      · simp only [List.filter_cons, hq, if_false, getA, if_neg hk]
        exact ih hnd.2 k

/-- The order sequence a `put` appends the key to: the previous order with
the key's old position removed when it was present. -/
def putOrder (s : SessionState) (key : Str) : List Str :=
  if containsA s.tool_result_cache key then
    s.tool_result_cache_order.filter (fun existing => existing ≠ key)
  else s.tool_result_cache_order

theorem putOrder_sublist (s : SessionState) (key : Str) :
    (putOrder s key).Sublist s.tool_result_cache_order := by
  unfold putOrder
  by_cases hc : containsA s.tool_result_cache key
  · rw [if_pos hc]
    exact List.filter_sublist _
  · rw [if_neg hc]

theorem put_unfold (s : SessionState) (now : Nat) (key : Str)
    (response : ResponseInputItem) (m : Nat) (hm : m ≠ 0) :
    put_cached_tool_result s now key response m =
      { tool_result_cache :=
          ((putOrder s key ++ [key]).take
            ((putOrder s key ++ [key]).length - m)).foldl removeA
            (insertA s.tool_result_cache key
              { stored_at := now, response := response }),
        tool_result_cache_order :=
          (putOrder s key ++ [key]).drop
            ((putOrder s key ++ [key]).length - m) } := by
  simp only [put_cached_tool_result, if_neg hm, putOrder, put_evict_loop_eq]

/-- The stored-at timestamp of a cached entry (`0` when absent). -/
def storedAt (s : SessionState) (k : Str) : Nat :=
  ((getA s.tool_result_cache k).map (fun e => e.stored_at)).getD 0

/-- The session-cache invariant of claim C8: cache keys are duplicate-free,
the order sequence is duplicate-free, holds exactly the keys present in the
entries map, and is sorted oldest-insertion-first by stored-at time. -/
def cache_inv (s : SessionState) : Prop :=
  (s.tool_result_cache.map Prod.fst).Nodup ∧
  s.tool_result_cache_order.Nodup ∧
  (∀ k, k ∈ s.tool_result_cache_order ↔
    containsA s.tool_result_cache k = true) ∧
  s.tool_result_cache_order.Pairwise (fun a b => storedAt s a ≤ storedAt s b)

theorem cache_inv_empty :
    cache_inv { tool_result_cache := [], tool_result_cache_order := [] } := by
  refine ⟨by simp, by simp, ?_, by simp⟩
  intro k
  simp [containsA, getA]

theorem key_not_mem_putOrder (s : SessionState) (key : Str)
    (hinv : cache_inv s) : key ∉ putOrder s key := by
  unfold putOrder
  by_cases hc : containsA s.tool_result_cache key
  · rw [if_pos hc]
    intro hmem
    obtain ⟨-, hne⟩ := List.mem_filter.1 hmem
    simp at hne
  · rw [if_neg hc]
    intro hmem
    exact hc ((hinv.2.2.1 key).1 hmem)

theorem getA_evict_iff {s : SessionState} {now max_age : Nat}
    (hinv1 : (s.tool_result_cache.map Prod.fst).Nodup) (hne : max_age ≠ 0)
    (k : Str) (e : CachedToolResult) :
    getA (evict_expired_tool_results s now max_age).tool_result_cache k =
        some e ↔
      (getA s.tool_result_cache k = some e ∧ now - e.stored_at ≤ max_age) := by
  simp only [evict_expired_tool_results, if_neg hne]
  rw [getA_filter_bind hinv1 k]
  cases hv : getA s.tool_result_cache k with
  | none => simp
  | some e2 =>
    simp only [Option.some_bind]
    by_cases hc : now - e2.stored_at ≤ max_age
    · rw [if_pos (decide_eq_true hc)]
      constructor
      · intro hh
        injection hh with hh
        exact ⟨by rw [hh], by rw [← hh]; exact hc⟩
      · rintro ⟨hh, -⟩
        injection hh with hh
        rw [hh]
    · rw [if_neg (by simpa using hc)]
      constructor
      · intro hh
        cases hh
      · rintro ⟨hh, hc2⟩
        injection hh with hh
        exact absurd hc2 (hh ▸ hc)

/-! ## Claim C7 -/

/-- Claim C7: a session-cache `get` first evicts every entry whose age
exceeds `max_age` measured at the read time; `max_age = 0` clears the whole
cache and returns `none` — in particular a `put` followed by a zero-age `get`
returns `none` with the entry gone — and otherwise a clone of the surviving
entry for the key, if any, is returned. -/
theorem get_cached_tool_result_spec (s : SessionState) (now : Nat) (key : Str)
    (max_age : Nat) (hinv : cache_inv s) :
    (get_cached_tool_result s now key 0 =
      (none, { tool_result_cache := [], tool_result_cache_order := [] })) ∧
    (0 < max_age →
      (get_cached_tool_result s now key max_age).1 =
        (getA s.tool_result_cache key).bind
          (fun e => if now - e.stored_at ≤ max_age then some e.response
            else none)) ∧
    (0 < max_age → ∀ (k : Str) (e : CachedToolResult),
      getA (get_cached_tool_result s now key max_age).2.tool_result_cache k =
          some e ↔
        (getA s.tool_result_cache k = some e ∧
          now - e.stored_at ≤ max_age)) ∧
    (∀ (s0 : SessionState) (n0 : Nat) (k0 : Str) (r : ResponseInputItem)
        (m : Nat),
      get_cached_tool_result (put_cached_tool_result s0 n0 k0 r m) n0 k0 0 =
        (none,
          { tool_result_cache := [], tool_result_cache_order := [] })) := by
  refine ⟨?_, ?_, ?_, ?_⟩
  · simp [get_cached_tool_result, evict_expired_tool_results, getA]
  · intro hage
    have hne : max_age ≠ 0 := by omega
    simp only [get_cached_tool_result]
    cases hv : getA
        (evict_expired_tool_results s now max_age).tool_result_cache key with
    | none =>
      cases hv0 : getA s.tool_result_cache key with
      | none => simp [hv, hv0]
      | some e =>
        by_cases hc : now - e.stored_at ≤ max_age
        · have hcontra := (getA_evict_iff hinv.1 hne key e).2 ⟨hv0, hc⟩
          rw [hv] at hcontra
          cases hcontra
        · simp only [hv, hv0, Option.some_bind]
          rw [if_neg hc]
          rfl
    | some e =>
      obtain ⟨hv0, hc⟩ := (getA_evict_iff hinv.1 hne key e).1 hv
      simp only [hv, hv0, Option.some_bind]
      rw [if_pos hc]
      rfl
  · intro hage k e
    exact getA_evict_iff hinv.1 (by omega) k e
  · intro s0 n0 k0 r m
    simp [get_cached_tool_result, evict_expired_tool_results, getA]

/-- Witness for claim C7: a zero-age get on the fresh session state returns
`none` and an empty cache. -/
theorem get_cached_tool_result_spec_witness :
    cache_inv SessionState.new ∧
      get_cached_tool_result SessionState.new 5 (strL "k") 0 =
        (none, { tool_result_cache := [], tool_result_cache_order := [] }) :=
  ⟨cache_inv_empty,
    (get_cached_tool_result_spec SessionState.new 5 (strL "k") 0
      cache_inv_empty).1⟩

/-! ## Claim C6 -/

/-- The sample cache value mirroring the session-cache tests
(session.rs:303-311). -/
def sample_tool_result (call_id output : Str) : ResponseInputItem :=
  .functionCallOutput call_id { body := .text output, success := some true }

/-- The bounded-eviction scenario state: keys `a`, `b`, `c` inserted in that
order with `max_entries = 2` (session.rs:551-571). -/
def put_abc_state : SessionState :=
  put_cached_tool_result
    (put_cached_tool_result
      (put_cached_tool_result SessionState.new 0 (strL "a")
        (sample_tool_result (strL "call-a") (strL "A")) 2)
      0 (strL "b") (sample_tool_result (strL "call-b") (strL "B")) 2)
    0 (strL "c") (sample_tool_result (strL "call-c") (strL "C")) 2

/-- Claim C6: every put with `max_entries > 0` stores the entry under the
current timestamp, removes the key's old position before appending the key at
the back (so the key occurs exactly once, at the back), and trims the order
sequence from the front down to `max_entries`; inserting `a`, `b`, `c` in
order with `max_entries = 2` leaves exactly `b` and `c` retrievable and `a`
evicted. -/
theorem put_cached_tool_result_spec (s : SessionState) (now : Nat) (key : Str)
    (response : ResponseInputItem) (max_entries : Nat)
    (hm : 1 ≤ max_entries) (hinv : cache_inv s) :
    (getA (put_cached_tool_result s now key response
        max_entries).tool_result_cache key =
      some { stored_at := now, response := response }) ∧
    ((put_cached_tool_result s now key response
        max_entries).tool_result_cache_order.count key = 1) ∧
    ((put_cached_tool_result s now key response
        max_entries).tool_result_cache_order.getLast? = some key) ∧
    ((put_cached_tool_result s now key response
        max_entries).tool_result_cache_order.length ≤ max_entries) ∧
    ((get_cached_tool_result put_abc_state 0 (strL "a") 60).1 = none ∧
      (get_cached_tool_result put_abc_state 0 (strL "b") 60).1 =
        some (sample_tool_result (strL "call-b") (strL "B")) ∧
      (get_cached_tool_result put_abc_state 0 (strL "c") 60).1 =
        some (sample_tool_result (strL "call-c") (strL "C"))) := by
  rw [put_unfold s now key response max_entries (by omega)]
  have hknot : key ∉ putOrder s key := key_not_mem_putOrder s key hinv
  have hdle : (putOrder s key ++ [key]).length - max_entries ≤
      (putOrder s key).length := by
    simp only [List.length_append, List.length_singleton]
    omega
  have htake : (putOrder s key ++ [key]).take
      ((putOrder s key ++ [key]).length - max_entries) =
      (putOrder s key).take ((putOrder s key ++ [key]).length - max_entries) :=
    List.take_append_of_le_length hdle
  have hdrop : (putOrder s key ++ [key]).drop
      ((putOrder s key ++ [key]).length - max_entries) =
      (putOrder s key).drop ((putOrder s key ++ [key]).length - max_entries)
        ++ [key] :=
    List.drop_append_of_le_length hdle
  have hkey_take : key ∉ (putOrder s key).take
      ((putOrder s key ++ [key]).length - max_entries) :=
    fun hmem => hknot ((List.take_sublist _ _).subset hmem)
  have hkey_dropP : key ∉ (putOrder s key).drop
      ((putOrder s key ++ [key]).length - max_entries) :=
    fun hmem => hknot ((List.drop_sublist _ _).subset hmem)
  refine ⟨?_, ?_, ?_, ?_, by decide, by decide, by decide⟩
  · rw [htake, getA_foldl_removeA_not_mem hkey_take]
    exact getA_insertA_self _ _ _
  · rw [hdrop, List.count_append, List.count_eq_zero_of_not_mem hkey_dropP]
    simp
  · rw [hdrop]
    exact List.getLast?_concat _
  · simp only [List.length_drop, List.length_append, List.length_singleton]
    omega

/-- Witness for claim C6: putting a key into the fresh session state makes it
retrievable with the put timestamp. -/
theorem put_cached_tool_result_spec_witness :
    (1 ≤ 8 ∧ cache_inv SessionState.new) ∧
      getA (put_cached_tool_result SessionState.new 0 (strL "k")
          (sample_tool_result (strL "c1") (strL "ok")) 8).tool_result_cache
        (strL "k") =
        some
          { stored_at := 0
            response := sample_tool_result (strL "c1") (strL "ok") } :=
  ⟨⟨by decide, cache_inv_empty⟩,
    (put_cached_tool_result_spec SessionState.new 0 (strL "k")
      (sample_tool_result (strL "c1") (strL "ok")) 8 (by decide)
      cache_inv_empty).1⟩

/-! ## Claim C8 -/

theorem getA_filter_eq_of_isSome {q : Str × CachedToolResult → Bool}
    {m : List (Str × CachedToolResult)} (hnd : (m.map Prod.fst).Nodup)
    {k : Str} (h : (getA (m.filter q) k).isSome) :
    getA (m.filter q) k = getA m k := by
  rw [getA_filter_bind hnd k] at h ⊢
  cases hv : getA m k with
  | none =>
    rw [hv] at h
    simp at h
  | some e =>
    rw [hv] at h
    simp only [Option.some_bind] at h ⊢
    by_cases hc : q (k, e)
    · rw [if_pos hc]
    · rw [if_neg hc] at h
      simp at h

theorem evict_unfold (s : SessionState) (now max_age : Nat) (h : max_age ≠ 0) :
    evict_expired_tool_results s now max_age =
      { tool_result_cache := s.tool_result_cache.filter
          (fun entry => decide (now - entry.2.stored_at ≤ max_age)),
        tool_result_cache_order := s.tool_result_cache_order.filter
          (fun key => containsA (s.tool_result_cache.filter
            (fun entry => decide (now - entry.2.stored_at ≤ max_age))) key) } := by
  simp only [evict_expired_tool_results, if_neg h]

/-- Claim C8: the session-cache invariant — the order sequence holds exactly
the keys of the entries map, each exactly once, oldest-insertion-first —
holds for the freshly constructed state and is preserved by every `get`
(including the eviction pass and the zero-age clear) and by every `put`
(including the `max_entries = 0` clear, the refresh of an existing key, and
the bounded eviction loop), `put` running at a time no earlier than any
stored timestamp. -/
theorem cache_inv_preserved :
    cache_inv SessionState.new ∧
    (∀ (s : SessionState) (now : Nat) (key : Str) (max_age : Nat),
      cache_inv s →
      cache_inv (get_cached_tool_result s now key max_age).2) ∧
    (∀ (s : SessionState) (now : Nat) (key : Str)
        (response : ResponseInputItem) (max_entries : Nat),
      cache_inv s →
      (∀ k, containsA s.tool_result_cache k = true → storedAt s k ≤ now) →
      cache_inv (put_cached_tool_result s now key response max_entries)) := by
  refine ⟨cache_inv_empty, ?_, ?_⟩
  · intro s now key max_age hinv
    have hsnd : (get_cached_tool_result s now key max_age).2 =
        evict_expired_tool_results s now max_age := rfl
    rw [hsnd]
    by_cases h0 : max_age = 0
    · subst h0
      simp only [evict_expired_tool_results, if_pos rfl]
      exact cache_inv_empty
    · rw [evict_unfold s now max_age h0]
      refine ⟨((List.filter_sublist _).map Prod.fst).nodup hinv.1,
        (List.filter_sublist _).nodup hinv.2.1, ?_, ?_⟩
      · intro k
        simp only [List.mem_filter]
        constructor
        · rintro ⟨-, hc⟩
          exact hc
        · intro hc
          refine ⟨?_, hc⟩
          apply (hinv.2.2.1 k).2
          simp only [containsA] at hc ⊢
          rw [← getA_filter_eq_of_isSome hinv.1 hc]
          exact hc
      · have hp : (s.tool_result_cache_order.filter
            (fun k2 => containsA (s.tool_result_cache.filter
              (fun entry =>
                decide (now - entry.2.stored_at ≤ max_age))) k2)).Pairwise
            (fun a b => storedAt s a ≤ storedAt s b) :=
          List.Pairwise.sublist (List.filter_sublist _) hinv.2.2.2
        refine List.Pairwise.imp_of_mem ?_ hp
        intro a b ha hb hab
        have hconv : ∀ x,
            x ∈ s.tool_result_cache_order.filter
              (fun k2 => containsA (s.tool_result_cache.filter
                (fun entry => decide (now - entry.2.stored_at ≤ max_age))) k2) →
            storedAt
              { tool_result_cache := s.tool_result_cache.filter
                  (fun entry => decide (now - entry.2.stored_at ≤ max_age)),
                tool_result_cache_order := s.tool_result_cache_order.filter
                  (fun k2 => containsA (s.tool_result_cache.filter
                    (fun entry =>
                      decide (now - entry.2.stored_at ≤ max_age))) k2) } x =
            storedAt s x := by
          intro x hx
          obtain ⟨-, hcx⟩ := List.mem_filter.1 hx
          simp only [storedAt]
          rw [getA_filter_eq_of_isSome hinv.1 (by simpa [containsA] using hcx)]
        rw [hconv a ha, hconv b hb]
        exact hab
  · intro s now key response m hinv hmono
    by_cases hm : m = 0
    · subst hm
      simp only [put_cached_tool_result, if_pos rfl]
      exact cache_inv_empty
    · rw [put_unfold s now key response m hm]
      have hknot : key ∉ putOrder s key := key_not_mem_putOrder s key hinv
      have hord0nd : (putOrder s key).Nodup :=
        (putOrder_sublist s key).nodup hinv.2.1
      have hdisj : List.Disjoint (putOrder s key) [key] := by
        intro a ha hb
        simp only [List.mem_singleton] at hb
        exact hknot (hb ▸ ha)
      have hord1nd : (putOrder s key ++ [key]).Nodup :=
        (List.nodup_append).2 ⟨hord0nd, List.nodup_singleton key, hdisj⟩
      have hc1nd : ((insertA s.tool_result_cache key
          { stored_at := now, response := response }).map Prod.fst).Nodup :=
        keys_insertA_nodup _ _ hinv.1
      set order1 := putOrder s key ++ [key] with horder1
      set d := order1.length - m with hd
      set cache1 := insertA s.tool_result_cache key
        { stored_at := now, response := response } with hcache1
      have hmem1 : ∀ k2, k2 ∈ order1 ↔ containsA cache1 k2 = true := by
        intro k2
        rw [horder1, hcache1, containsA_insertA]
        simp only [List.mem_append, List.mem_singleton]
        unfold putOrder
        by_cases hc : containsA s.tool_result_cache key
        · rw [if_pos hc]
          simp only [List.mem_filter, decide_eq_true_eq]
          constructor
          · rintro (⟨hmem, hne⟩ | heq)
            · exact Or.inr ((hinv.2.2.1 k2).1 hmem)
            · exact Or.inl heq
          · rintro (heq | hcon)
            · exact Or.inr heq
            · by_cases hke : k2 = key
              · exact Or.inr hke
              · exact Or.inl ⟨(hinv.2.2.1 k2).2 hcon, hke⟩
        · rw [if_neg hc]
          constructor
          · rintro (hmem | heq)
            · exact Or.inr ((hinv.2.2.1 k2).1 hmem)
            · exact Or.inl heq
          · rintro (heq | hcon)
            · exact Or.inr heq
            · exact Or.inl ((hinv.2.2.1 k2).2 hcon)
      have hdisj_td : ∀ {x}, x ∈ order1.take d → x ∈ order1.drop d → False := by
        intro x ht hd2
        have hnd := hord1nd
        rw [← List.take_append_drop d order1, List.nodup_append] at hnd
        exact hnd.2.2 ht hd2
      have hgetA_fin : ∀ k2, k2 ∉ order1.take d →
          getA ((order1.take d).foldl removeA cache1) k2 = getA cache1 k2 :=
        fun k2 hk2 => getA_foldl_removeA_not_mem hk2 cache1
      have hgetA_fin_none : ∀ k2, k2 ∈ order1.take d →
          getA ((order1.take d).foldl removeA cache1) k2 = none :=
        fun k2 hk2 => getA_foldl_removeA_mem hc1nd hk2
      refine ⟨keys_foldl_removeA_nodup hc1nd,
        (List.drop_sublist _ _).nodup hord1nd, ?_, ?_⟩
      · intro k2
        constructor
        · intro hk2
          have hk2o : k2 ∈ order1 := (List.drop_sublist _ _).subset hk2
          have hk2nt : k2 ∉ order1.take d := fun ht => hdisj_td ht hk2
          simp only [containsA]
          rw [hgetA_fin k2 hk2nt]
          have := (hmem1 k2).1 hk2o
          simpa [containsA] using this
        · intro hc
          have hk2nt : k2 ∉ order1.take d := by
            intro ht
            rw [containsA, hgetA_fin_none k2 ht] at hc
            simp at hc
          have hc1 : containsA cache1 k2 = true := by
            rw [containsA, hgetA_fin k2 hk2nt] at hc
            exact hc
          have hk2o : k2 ∈ order1 := (hmem1 k2).2 hc1
          rcases List.mem_append.1
              ((List.take_append_drop d order1).symm ▸ hk2o) with ht | hd2
          · exact absurd ht hk2nt
          · exact hd2
      · have hpair1 : order1.Pairwise (fun a b =>
            (if a = key then now else storedAt s a) ≤
            (if b = key then now else storedAt s b)) := by
          rw [horder1, List.pairwise_append]
          refine ⟨?_, List.pairwise_singleton _ _, ?_⟩
          · refine List.Pairwise.imp_of_mem ?_
              (List.Pairwise.sublist (putOrder_sublist s key) hinv.2.2.2)
            intro a b ha hb hab
            rw [if_neg (fun hh : a = key => hknot (hh ▸ ha)),
              if_neg (fun hh : b = key => hknot (hh ▸ hb))]
            exact hab
          · intro a ha b hb
            simp only [List.mem_singleton] at hb
            rw [hb, if_pos rfl, if_neg (fun hh : a = key => hknot (hh ▸ ha))]
            apply hmono
            exact (hinv.2.2.1 a).1 ((putOrder_sublist s key).subset ha)
        have hpair2 := List.Pairwise.sublist (List.drop_sublist d order1) hpair1
        refine List.Pairwise.imp_of_mem ?_ hpair2
        intro a b ha hb hab
        have hconv : ∀ x, x ∈ order1.drop d →
            storedAt
              { tool_result_cache := (order1.take d).foldl removeA cache1,
                tool_result_cache_order := order1.drop d } x =
            (if x = key then now else storedAt s x) := by
          intro x hx
          have hxnt : x ∉ order1.take d := fun ht => hdisj_td ht hx
          simp only [storedAt]
          rw [hgetA_fin x hxnt]
          by_cases hxk : x = key
          · subst hxk
            rw [hcache1, getA_insertA_self]
            simp
          · rw [hcache1, getA_insertA_ne _ _ _ _ hxk, if_neg hxk]
        rw [hconv a ha, hconv b hb]
        exact hab

/-- Witness for claim C8: applying the preservation statement concretely, a
put at time 3 into the fresh state preserves the invariant. -/
theorem cache_inv_preserved_witness :
    cache_inv SessionState.new ∧
      cache_inv (put_cached_tool_result SessionState.new 3 (strL "k")
        (sample_tool_result (strL "c1") (strL "ok")) 8) := by
  refine ⟨cache_inv_empty, ?_⟩
  refine cache_inv_preserved.2.2 SessionState.new 3 (strL "k")
    (sample_tool_result (strL "c1") (strL "ok")) 8 cache_inv_empty ?_
  intro k hk
  simp [SessionState.new, containsA, getA] at hk

/-! ## Claim C5 -/

/-- Claim C5: every cached result is returned through
`remap_response_call_id`, which stamps the requesting call's id onto every
cacheable result shape (a cached entry is never a `Message`, the one shape
without a call id), so the stored entry's original id is never returned; and
`call_id` is no component of the cache key — two calls differing only in
`call_id` share a key. -/
theorem remap_call_id_spec :
    (∀ (response : ResponseInputItem) (id : Str),
      should_cache_tool_response response = true →
      (remap_response_call_id response id).callId = some id) ∧
    (∀ (response : ResponseInputItem) (id old : Str),
      should_cache_tool_response response = true →
      response.callId = some old → old ≠ id →
      (remap_response_call_id response id).callId ≠ some old) ∧
    (∀ (parse : Str → Option Json) (tool_name id1 id2 : Str)
        (payload : ToolPayload),
      tool_call_cache_key parse ⟨tool_name, id1, payload⟩ =
        tool_call_cache_key parse ⟨tool_name, id2, payload⟩) := by
  have hstamp : ∀ (response : ResponseInputItem) (id : Str),
      should_cache_tool_response response = true →
      (remap_response_call_id response id).callId = some id := by
    intro response id h
    cases response with
    | functionCallOutput a b => rfl
    | mcpToolCallOutput a b => rfl
    | customToolCallOutput a b => rfl
    | message r c => simp [should_cache_tool_response] at h
  refine ⟨hstamp, ?_, ?_⟩
  · intro response id old h hold hne
    rw [hstamp response id h]
    intro hc
    injection hc with hc
    exact hne hc.symm
  · intro parse tool_name id1 id2 payload
    cases payload <;> rfl

/-- Witness for claim C5: remapping a cacheable function output onto the
requester's id returns the requester's id, not the stored one. -/
theorem remap_call_id_spec_witness :
    should_cache_tool_response
        (.functionCallOutput (strL "old")
          { body := .text (strL "ok"), success := some true }) = true ∧
      (remap_response_call_id
          (.functionCallOutput (strL "old")
            { body := .text (strL "ok"), success := some true })
          (strL "new")).callId = some (strL "new") :=
  ⟨by decide,
    remap_call_id_spec.1
      (.functionCallOutput (strL "old")
        { body := .text (strL "ok"), success := some true })
      (strL "new") (by decide)⟩

/-! ## Claim C2 -/

/-- A concrete parse fixture agreeing with `serde_json::from_str` on the only
argument texts the witnesses and counterexamples use: the two key-order
permutations of the two-field object parse to the corresponding values, and
every other text is unparseable. -/
def parseFixture (s : Str) : Option Json :=
  if s = strL "\x7b\x22a\x22:1,\x22b\x22:2\x7d" then
    some (.obj [(strL "a", .num 1), (strL "b", .num 2)])
  else if s = strL "\x7b\x22b\x22:2,\x22a\x22:1\x7d" then
    some (.obj [(strL "b", .num 2), (strL "a", .num 1)])
  else none

/-- Counterexample to claim C2 as stated: two calls with the same tool name
but different canonicalized payloads — command `["a|b"]` with no workdir
versus command `["a"]` with workdir `"b|"` — produce the same cache key,
because the `|` delimiter also occurs inside the payload components. -/
theorem cache_key_not_injective :
    tool_call_cache_key parseFixture
        ⟨strL "t", strL "id1",
          .localShell ⟨[strL "a|b"], none, none⟩⟩ =
      tool_call_cache_key parseFixture
        ⟨strL "t", strL "id2",
          .localShell ⟨[strL "a"], some (strL "b|"), none⟩⟩ ∧
    (ToolPayload.localShell ⟨[strL "a|b"], none, none⟩ ≠
      ToolPayload.localShell ⟨[strL "a"], some (strL "b|"), none⟩) := by
  constructor
  · decide
  · decide

/-- The delimiter-freedom precondition for injectivity of the key: no `|` in
the tool name or in any non-final key component of the payload. -/
def payload_delim_free : ToolPayload → Prop
  | .function _ => True
  | .custom _ => True
  | .localShell params =>
    (∀ t ∈ params.command, '|' ∉ t) ∧
    (∀ w, params.workdir = some w → '|' ∉ w)
  | .mcp server tool _ => '|' ∉ server ∧ '|' ∉ tool

/-- Equality of canonicalized payloads exactly as they are embedded in the
key: same variant, and equal canonical components (canonical or raw-trimmed
JSON arguments; joined command, defaulted workdir and defaulted timeout text;
server and tool names). -/
def payload_key_eq (parse : Str → Option Json) :
    ToolPayload → ToolPayload → Prop
  | .function a, .function b =>
    canonical_json_or_raw parse a = canonical_json_or_raw parse b
  | .custom a, .custom b => trimStr a = trimStr b
  | .localShell pa, .localShell pb =>
    joinUnitSep pa.command = joinUnitSep pb.command ∧
    pa.workdir.getD [] = pb.workdir.getD [] ∧
    (toString (pa.timeout_ms.getD 0)).data =
      (toString (pb.timeout_ms.getD 0)).data
  | .mcp sa ta aa, .mcp sb tb ab =>
    sa = sb ∧ ta = tb ∧
    canonical_json_or_raw parse aa = canonical_json_or_raw parse ab
  | _, _ => False

theorem append_pipe_cancel :
    ∀ {a a2 r r2 : Str}, '|' ∉ a → '|' ∉ a2 →
    a ++ ('|' :: r) = a2 ++ ('|' :: r2) → a = a2 ∧ r = r2 := by
  intro a
  induction a with
  | nil =>
    intro a2 r r2 _ ha2 h
    cases a2 with
    | nil =>
      simp only [List.nil_append] at h
      injection h with _ h2
      exact ⟨rfl, h2⟩
    | cons c rest =>
      simp only [List.nil_append, List.cons_append] at h
      injection h with h1 _
      exact absurd (List.mem_cons.2 (Or.inl h1)) ha2
  | cons c rest ih =>
    intro a2 r r2 ha ha2 h
    cases a2 with
    | nil =>
      simp only [List.cons_append, List.nil_append] at h
      injection h with h1 _
      exact absurd (List.mem_cons.2 (Or.inl h1.symm)) ha
    | cons c2 rest2 =>
      simp only [List.cons_append] at h
      injection h with h1 h2
      have ha' : '|' ∉ rest := fun hm => ha (List.mem_cons_of_mem _ hm)
      have ha2' : '|' ∉ rest2 := fun hm => ha2 (List.mem_cons_of_mem _ hm)
      obtain ⟨he, hr⟩ := ih ha' ha2' h2
      exact ⟨by rw [h1, he], hr⟩

theorem joinUnitSep_pipe_free {command : List Str}
    (h : ∀ t ∈ command, '|' ∉ t) : '|' ∉ joinUnitSep command := by
  induction command with
  | nil => simp [joinUnitSep]
  | cons t rest ih =>
    cases rest with
    | nil => exact h t (List.mem_cons_self _ _)
    | cons u rest2 =>
      rw [joinUnitSep]
      intro hmem
      rcases List.mem_append.1 hmem with hmem | hmem
      · exact h t (List.mem_cons_self _ _) hmem
      · rcases List.mem_cons.1 hmem with hmem | hmem
        · exact absurd hmem (by decide)
        · exact ih (fun x hx => h x (List.mem_cons_of_mem _ hx)) hmem

/-- Claim C2 (amended): restricted to calls whose tool names and non-final
key components contain no `|` delimiter, the cache key determines the tool
name, the payload variant and every canonicalized payload component, so
different tool names, different variants, or different canonicalized payloads
yield different keys. -/
theorem cache_key_injective_delim_free (parse : Str → Option Json)
    (cA cB : ToolCall)
    (hA : '|' ∉ cA.tool_name) (hB : '|' ∉ cB.tool_name)
    (hpa : payload_delim_free cA.payload)
    (hpb : payload_delim_free cB.payload)
    (h : tool_call_cache_key parse cA = tool_call_cache_key parse cB) :
    cA.tool_name = cB.tool_name ∧ payload_key_eq parse cA.payload cB.payload := by
  obtain ⟨tA, iA, pA⟩ := cA
  obtain ⟨tB, iB, pB⟩ := cB
  simp only at hA hB hpa hpb ⊢
  cases pA with
  | function argsA =>
    cases pB with
    | function argsB =>
      simp only [tool_call_cache_key] at h
      obtain ⟨ht, h2⟩ := append_pipe_cancel hA hB h
      obtain ⟨-, h3⟩ := append_pipe_cancel (by decide) (by decide) h2
      exact ⟨ht, h3⟩
    | custom inputB =>
      simp only [tool_call_cache_key] at h
      obtain ⟨-, h2⟩ := append_pipe_cancel hA hB h
      obtain ⟨htag, -⟩ := append_pipe_cancel (by decide) (by decide) h2
      exact absurd htag (by decide)
    | localShell paramsB =>
      simp only [tool_call_cache_key] at h
      obtain ⟨-, h2⟩ := append_pipe_cancel hA hB h
      obtain ⟨htag, -⟩ := append_pipe_cancel (by decide) (by decide) h2
      exact absurd htag (by decide)
    | mcp serverB toolB argsB =>
      simp only [tool_call_cache_key] at h
      obtain ⟨-, h2⟩ := append_pipe_cancel hA hB h
      obtain ⟨htag, -⟩ := append_pipe_cancel (by decide) (by decide) h2
      exact absurd htag (by decide)
  | custom inputA =>
    cases pB with
    | function argsB =>
      simp only [tool_call_cache_key] at h
      obtain ⟨-, h2⟩ := append_pipe_cancel hA hB h
      obtain ⟨htag, -⟩ := append_pipe_cancel (by decide) (by decide) h2
      exact absurd htag (by decide)
    | custom inputB =>
      simp only [tool_call_cache_key] at h
      obtain ⟨ht, h2⟩ := append_pipe_cancel hA hB h
      obtain ⟨-, h3⟩ := append_pipe_cancel (by decide) (by decide) h2
      exact ⟨ht, h3⟩
    | localShell paramsB =>
      simp only [tool_call_cache_key] at h
      obtain ⟨-, h2⟩ := append_pipe_cancel hA hB h
      obtain ⟨htag, -⟩ := append_pipe_cancel (by decide) (by decide) h2
      exact absurd htag (by decide)
    | mcp serverB toolB argsB =>
      simp only [tool_call_cache_key] at h
      obtain ⟨-, h2⟩ := append_pipe_cancel hA hB h
      obtain ⟨htag, -⟩ := append_pipe_cancel (by decide) (by decide) h2
      exact absurd htag (by decide)
  | localShell paramsA =>
    simp only [payload_delim_free] at hpa
    have hwdA : '|' ∉ (paramsA.workdir.getD []) := by
      cases hw : paramsA.workdir with
      | none => simp
      | some w => exact hpa.2 w hw
    cases pB with
    | function argsB =>
      simp only [tool_call_cache_key] at h
      obtain ⟨-, h2⟩ := append_pipe_cancel hA hB h
      obtain ⟨htag, -⟩ := append_pipe_cancel (by decide) (by decide) h2
      exact absurd htag (by decide)
    | custom inputB =>
      simp only [tool_call_cache_key] at h
      obtain ⟨-, h2⟩ := append_pipe_cancel hA hB h
      obtain ⟨htag, -⟩ := append_pipe_cancel (by decide) (by decide) h2
      exact absurd htag (by decide)
    | localShell paramsB =>
      simp only [payload_delim_free] at hpb
      have hwdB : '|' ∉ (paramsB.workdir.getD []) := by
        cases hw : paramsB.workdir with
        | none => simp
        | some w => exact hpb.2 w hw
      simp only [tool_call_cache_key] at h
      obtain ⟨ht, h2⟩ := append_pipe_cancel hA hB h
      obtain ⟨-, h3⟩ := append_pipe_cancel (by decide) (by decide) h2
      obtain ⟨hcmd, h4⟩ := append_pipe_cancel
        (joinUnitSep_pipe_free hpa.1) (joinUnitSep_pipe_free hpb.1) h3
      obtain ⟨hwd, hts⟩ := append_pipe_cancel hwdA hwdB h4
      exact ⟨ht, hcmd, hwd, hts⟩
    | mcp serverB toolB argsB =>
      simp only [tool_call_cache_key] at h
      obtain ⟨-, h2⟩ := append_pipe_cancel hA hB h
      obtain ⟨htag, -⟩ := append_pipe_cancel (by decide) (by decide) h2
      exact absurd htag (by decide)
  | mcp serverA toolA argsA =>
    simp only [payload_delim_free] at hpa
    cases pB with
    | function argsB =>
      simp only [tool_call_cache_key] at h
      obtain ⟨-, h2⟩ := append_pipe_cancel hA hB h
      obtain ⟨htag, -⟩ := append_pipe_cancel (by decide) (by decide) h2
      exact absurd htag (by decide)
    | custom inputB =>
      simp only [tool_call_cache_key] at h
      obtain ⟨-, h2⟩ := append_pipe_cancel hA hB h
      obtain ⟨htag, -⟩ := append_pipe_cancel (by decide) (by decide) h2
      exact absurd htag (by decide)
    | localShell paramsB =>
      simp only [tool_call_cache_key] at h
      obtain ⟨-, h2⟩ := append_pipe_cancel hA hB h
      obtain ⟨htag, -⟩ := append_pipe_cancel (by decide) (by decide) h2
      exact absurd htag (by decide)
    | mcp serverB toolB argsB =>
      simp only [payload_delim_free] at hpb
      simp only [tool_call_cache_key] at h
      obtain ⟨ht, h2⟩ := append_pipe_cancel hA hB h
      obtain ⟨-, h3⟩ := append_pipe_cancel (by decide) (by decide) h2
      obtain ⟨hs, h4⟩ := append_pipe_cancel hpa.1 hpb.1 h3
      obtain ⟨htool, hargs⟩ := append_pipe_cancel hpa.2 hpb.2 h4
      exact ⟨ht, hs, htool, hargs⟩

/-- Witness for the amended claim C2: two delimiter-free MCP calls whose
cache keys coincide have equal tool names, servers, tools and canonical
arguments. -/
theorem cache_key_injective_delim_free_witness :
    ('|' ∉ strL "t" ∧
      payload_delim_free (.mcp (strL "s") (strL "m") (strL "x"))) ∧
      (strL "t" = strL "t" ∧
        payload_key_eq parseFixture (.mcp (strL "s") (strL "m") (strL "x"))
          (.mcp (strL "s") (strL "m") (strL "x"))) := by
  refine ⟨⟨by decide, by decide, by decide⟩, ?_⟩
  exact cache_key_injective_delim_free parseFixture
    ⟨strL "t", strL "i1", .mcp (strL "s") (strL "m") (strL "x")⟩
    ⟨strL "t", strL "i2", .mcp (strL "s") (strL "m") (strL "x")⟩
    (by decide) (by decide) ⟨by decide, by decide⟩ ⟨by decide, by decide⟩ rfl

/-! ## Claim C1: canonicalization is invariant under key reordering -/

theorem insertA_append {α : Type} {m : List (Str × α)} {k : Str} (v : α)
    (h : k ∉ m.map Prod.fst) : insertA m k v = m ++ [(k, v)] := by
  induction m with
  | nil => rfl
  | cons p rest ih =>
    obtain ⟨k0, v0⟩ := p
    simp only [List.map_cons, List.mem_cons] at h
    push_neg at h
    have hk : k0 ≠ k := fun hh => h.1 hh.symm
    simp only [insertA, if_neg hk, List.cons_append]
    rw [ih h.2]

theorem canonicalize_fields_cons_some {object : List (Str × Json)} {key : Str}
    {child : Json} (h : getA object key = some child) (rest : List Str)
    (acc : List (Str × Json)) :
    canonicalize_fields object (key :: rest) acc =
      canonicalize_fields object rest
        (insertA acc key (canonicalize_json_value child)) := by
  rw [canonicalize_fields]
  split
  · next c heq =>
      rw [h] at heq
      injection heq with heq
      rw [heq]
  · next heq =>
      rw [h] at heq
      cases heq

theorem canonicalize_fields_cons_none {object : List (Str × Json)} {key : Str}
    (h : getA object key = none) (rest : List Str) (acc : List (Str × Json)) :
    canonicalize_fields object (key :: rest) acc =
      canonicalize_fields object rest acc := by
  rw [canonicalize_fields]
  split
  · next c heq =>
      rw [h] at heq
      cases heq
  · next heq => rfl

theorem canonicalize_fields_spec (object : List (Str × Json)) :
    ∀ (keys : List Str) (acc : List (Str × Json)), keys.Nodup →
      (∀ k ∈ keys, k ∉ acc.map Prod.fst) →
      canonicalize_fields object keys acc =
        acc ++ keys.filterMap (fun k => (getA object k).map
          (fun c => (k, canonicalize_json_value c))) := by
  intro keys
  induction keys with
  | nil =>
    intro acc _ _
    simp [canonicalize_fields]
  | cons key rest ih =>
    intro acc hnd hdis
    simp only [List.nodup_cons] at hnd
    cases hchild : getA object key with
    | some child =>
      have hdis' : ∀ k ∈ rest,
          k ∉ (acc ++ [(key, canonicalize_json_value child)]).map Prod.fst := by
        intro k hk
        simp only [List.map_append, List.mem_append, List.map_cons,
          List.map_nil, List.mem_singleton]
        rintro (hmem | hmem)
        · exact hdis k (List.mem_cons_of_mem _ hk) hmem
        · exact hnd.1 (hmem ▸ hk)
      rw [canonicalize_fields_cons_some hchild,
        insertA_append _ (hdis key (List.mem_cons_self _ _)),
        ih _ hnd.2 hdis']
      simp [List.filterMap_cons, hchild, List.append_assoc]
    | none =>
      rw [canonicalize_fields_cons_none hchild,
        ih acc hnd.2 (fun k hk => hdis k (List.mem_cons_of_mem _ hk))]
      simp [List.filterMap_cons, hchild]

theorem json_wf_fields_getA : ∀ {fs : List (Str × Json)} {k : Str} {v : Json},
    json_wf_fields fs = true → getA fs k = some v → json_wf v = true := by
  intro fs
  induction fs with
  | nil =>
    intro k v _ hv
    cases hv
  | cons p rest ih =>
    intro k v hwf hv
    obtain ⟨k0, v0⟩ := p
    simp only [json_wf_fields, Bool.and_eq_true] at hwf
    simp only [getA] at hv
    by_cases hk : k0 = k
    · rw [if_pos hk] at hv
      injection hv with hv
      rw [← hv]
      exact hwf.1
    · rw [if_neg hk] at hv
      exact ih hwf.2 hv

theorem keyPermFields_keys : ∀ (fs l : List (Str × Json)),
    KeyPermFields fs l → fs.map Prod.fst = l.map Prod.fst := by
  intro fs
  induction fs with
  | nil =>
    intro l h
    cases l with
    | nil => rfl
    | cons q gs => exact absurd h (by simp [KeyPermFields])
  | cons p rest ih =>
    intro l h
    obtain ⟨k, v⟩ := p
    cases l with
    | nil => exact absurd h (by simp [KeyPermFields])
    | cons q gs =>
      obtain ⟨k2, w⟩ := q
      simp only [KeyPermFields] at h
      obtain ⟨hk, -, hrest⟩ := h
      simp only [List.map_cons, hk, ih gs hrest]

theorem keyPermFields_getA : ∀ (fs l : List (Str × Json)),
    KeyPermFields fs l → ∀ {k : Str} {v w : Json},
    getA fs k = some v → getA l k = some w → KeyPerm v w := by
  intro fs
  induction fs with
  | nil =>
    intro l h k v w hv _
    cases hv
  | cons p rest ih =>
    intro l h k v w hv hw
    obtain ⟨k0, v0⟩ := p
    cases l with
    | nil => exact absurd h (by simp [KeyPermFields])
    | cons q gs =>
      obtain ⟨k2, w0⟩ := q
      simp only [KeyPermFields] at h
      obtain ⟨hk, hvw, hrest⟩ := h
      simp only [getA] at hv hw
      by_cases hk0 : k0 = k
      · rw [if_pos hk0] at hv
        rw [if_pos (hk ▸ hk0)] at hw
        injection hv with hv
        injection hw with hw
        rw [← hv, ← hw]
        exact hvw
      · rw [if_neg hk0] at hv
        rw [if_neg (hk ▸ hk0)] at hw
        exact ih gs hrest hv hw

theorem getA_perm {l gs : List (Str × Json)} (hp : l.Perm gs)
    (hnd : (l.map Prod.fst).Nodup) (k : Str) : getA l k = getA gs k := by
  induction hp with
  | nil => rfl
  | cons p h ih =>
    obtain ⟨k0, v0⟩ := p
    simp only [List.map_cons, List.nodup_cons] at hnd
    simp only [getA]
    by_cases hk : k0 = k
    · rw [if_pos hk, if_pos hk]
    · rw [if_neg hk, if_neg hk]
      exact ih hnd.2
  | swap x y l =>
    obtain ⟨k0, v0⟩ := y
    obtain ⟨k1, v1⟩ := x
    simp only [List.map_cons, List.nodup_cons, List.mem_cons] at hnd
    push_neg at hnd
    simp only [getA]
    by_cases h0 : k0 = k
    · by_cases h1 : k1 = k
      · exact absurd (h0.trans h1.symm) hnd.1.1
      · rw [if_pos h0, if_neg h1, if_pos h0]
    · by_cases h1 : k1 = k
      · rw [if_neg h0, if_pos h1, if_pos h1]
      · rw [if_neg h0, if_neg h1, if_neg h1, if_neg h0]
  | trans h1 h2 ih1 ih2 =>
    rw [ih1 hnd, ih2 ((List.Perm.nodup_iff (h1.map Prod.fst)).mp hnd)]

theorem getA_isSome_of_mem_keys {α : Type} {m : List (Str × α)} {k : Str}
    (h : k ∈ m.map Prod.fst) : ∃ v, getA m k = some v := by
  have hc : containsA m k = true := (containsA_iff_mem_keys m k).2 h
  simp only [containsA, Option.isSome_iff_exists] at hc
  exact hc

/-- Strong-induction core of the canonicalization-invariance argument: on
values of bounded size, key-order-equivalent well-formed JSON canonicalizes
identically, and likewise pointwise for lists of values. -/
theorem keyPerm_canonicalize_aux (n : Nat) :
    (∀ a b, sizeOf a ≤ n → KeyPerm a b → json_wf a = true →
      canonicalize_json_value a = canonicalize_json_value b) ∧
    (∀ xs ys, sizeOf xs ≤ n → KeyPermList xs ys → json_wf_list xs = true →
      canonicalize_list xs = canonicalize_list ys) := by
  induction n using Nat.strong_induction_on with
  | _ n ih =>
  constructor
  · intro a b hsize h hwf
    cases a <;> cases b <;> simp only [KeyPerm] at h
    case null.null => rfl
    case bool.bool x y => rw [h]
    case num.num x y => rw [h]
    case str.str x y => rw [h]
    case arr.arr xs ys =>
      simp only [json_wf] at hwf
      simp only [Json.arr.sizeOf_spec] at hsize
      simp only [canonicalize_json_value]
      exact congrArg Json.arr
        ((ih (sizeOf xs) (by omega)).2 xs ys (le_refl _) h hwf)
    case obj.obj fs gs =>
      obtain ⟨l, hpt, hperm⟩ := h
      simp only [json_wf, Bool.and_eq_true, decide_eq_true_eq] at hwf
      obtain ⟨hnd, hwff⟩ := hwf
      simp only [Json.obj.sizeOf_spec] at hsize
      have hkeys : fs.map Prod.fst = l.map Prod.fst :=
        keyPermFields_keys fs l hpt
      have hkeysperm : (fs.map Prod.fst).Perm (gs.map Prod.fst) :=
        hkeys ▸ (hperm.map Prod.fst)
      have hlnd : (l.map Prod.fst).Nodup := hkeys ▸ hnd
      have hgnd : (gs.map Prod.fst).Nodup :=
        ((hperm.map Prod.fst).nodup_iff).mp hlnd
      have hsortndf : (sortKeys (fs.map Prod.fst)).Nodup :=
        ((List.perm_insertionSort _ _).nodup_iff).mpr hnd
      have hsortndg : (sortKeys (gs.map Prod.fst)).Nodup :=
        ((List.perm_insertionSort _ _).nodup_iff).mpr hgnd
      haveI : IsTotal Str (fun a b : Str => a ≤ b) := ⟨fun a b => le_total a b⟩
      haveI : IsTrans Str (fun a b : Str => a ≤ b) :=
        ⟨fun a b c hab hbc => le_trans hab hbc⟩
      haveI : IsAntisymm Str (fun a b : Str => a ≤ b) :=
        ⟨fun a b hab hba => le_antisymm hab hba⟩
      have hsorteq : sortKeys (fs.map Prod.fst) = sortKeys (gs.map Prod.fst) := by
        refine List.eq_of_perm_of_sorted
          ((List.perm_insertionSort _ _).trans
            (hkeysperm.trans (List.perm_insertionSort _ _).symm))
          (List.sorted_insertionSort _ _) (List.sorted_insertionSort _ _)
      have hnilf : ∀ k ∈ sortKeys (fs.map Prod.fst),
          k ∉ ([] : List (Str × Json)).map Prod.fst := by
        intro k _
        rw [List.map_nil]
        exact List.not_mem_nil k
      have hnilg : ∀ k ∈ sortKeys (gs.map Prod.fst),
          k ∉ ([] : List (Str × Json)).map Prod.fst := by
        intro k _
        rw [List.map_nil]
        exact List.not_mem_nil k
      simp only [canonicalize_json_value]
      rw [canonicalize_fields_spec fs _ [] hsortndf hnilf,
        canonicalize_fields_spec gs _ [] hsortndg hnilg, ← hsorteq,
        List.nil_append, List.nil_append]
      refine congrArg Json.obj (List.filterMap_congr ?_)
      intro k hk
      have hkmem : k ∈ fs.map Prod.fst := by
        unfold sortKeys at hk
        exact (List.mem_insertionSort _).mp hk
      obtain ⟨v, hv⟩ := getA_isSome_of_mem_keys hkmem
      have hkl : k ∈ l.map Prod.fst := hkeys ▸ hkmem
      obtain ⟨w, hw⟩ := getA_isSome_of_mem_keys hkl
      have hgw : getA gs k = some w := by
        rw [← getA_perm hperm hlnd k]
        exact hw
      have hkp : KeyPerm v w := keyPermFields_getA fs l hpt hv hw
      have hvwf : json_wf v = true := json_wf_fields_getA hwff hv
      have hsz : sizeOf v < sizeOf fs := sizeOf_getA_lt hv
      have hcanon : canonicalize_json_value v = canonicalize_json_value w :=
        (ih (sizeOf v) (by omega)).1 v w (le_refl _) hkp hvwf
      rw [hv, hgw]
      simp [hcanon]
  · intro xs ys hsize h hwf
    cases xs <;> cases ys <;> simp only [KeyPermList] at h
    case nil.nil => rfl
    case cons.cons x xs2 y ys2 =>
      simp only [json_wf_list, Bool.and_eq_true] at hwf
      simp only [List.cons.sizeOf_spec] at hsize
      simp only [canonicalize_list]
      rw [(ih (sizeOf x) (by omega)).1 x y (le_refl _) h.1 hwf.1,
        (ih (sizeOf xs2) (by omega)).2 xs2 ys2 (le_refl _) h.2 hwf.2]

/-- Key-order-equivalent well-formed JSON values canonicalize identically:
sorting every object's keys erases exactly the difference `KeyPerm` permits. -/
theorem keyPerm_canonicalize (a b : Json) (h : KeyPerm a b)
    (hwf : json_wf a = true) :
    canonicalize_json_value a = canonicalize_json_value b :=
  (keyPerm_canonicalize_aux (sizeOf a)).1 a b (le_refl _) h hwf

/-- Claim C1: two tool calls identical except that the JSON text of their
`Function` (or `Mcp`) arguments differs only by the order of keys inside
objects (arrays keeping element order) receive equal cache keys; when the
arguments text is not parseable as JSON the key falls back to the trimmed raw
text; and key building is total. -/
theorem cache_key_canonicalization (parse : Str → Option Json)
    (tool_name idA idB server tool argsA argsB : Str) (vA vB : Json)
    (hA : parse argsA = some vA) (hB : parse argsB = some vB)
    (hwf : json_wf vA = true) (hperm : KeyPerm vA vB) :
    (tool_call_cache_key parse ⟨tool_name, idA, .function argsA⟩ =
      tool_call_cache_key parse ⟨tool_name, idB, .function argsB⟩) ∧
    (tool_call_cache_key parse ⟨tool_name, idA, .mcp server tool argsA⟩ =
      tool_call_cache_key parse ⟨tool_name, idB, .mcp server tool argsB⟩) ∧
    (∀ raw, parse raw = none →
      canonical_json_or_raw parse raw = trimStr raw) ∧
    (∀ call : ToolCall, ∃ key, tool_call_cache_key parse call = key) := by
  have hcanon : canonical_json_or_raw parse argsA =
      canonical_json_or_raw parse argsB := by
    simp only [canonical_json_or_raw, hA, hB]
    rw [keyPerm_canonicalize vA vB hperm hwf]
  refine ⟨?_, ?_, ?_, fun call => ⟨_, rfl⟩⟩
  · simp only [tool_call_cache_key, hcanon]
  · simp only [tool_call_cache_key, hcanon]
  · intro raw hraw
    simp only [canonical_json_or_raw, hraw]

/-- Witness for claim C1: the two key-order permutations of the same
two-field object produce one cache key for the same tool. -/
theorem cache_key_canonicalization_witness :
    parseFixture (strL "\x7b\x22a\x22:1,\x22b\x22:2\x7d") =
        some (.obj [(strL "a", .num 1), (strL "b", .num 2)]) ∧
      json_wf (.obj [(strL "a", .num 1), (strL "b", .num 2)]) = true ∧
      tool_call_cache_key parseFixture
          ⟨strL "search_query", strL "call-a",
            .function (strL "\x7b\x22a\x22:1,\x22b\x22:2\x7d")⟩ =
        tool_call_cache_key parseFixture
          ⟨strL "search_query", strL "call-b",
            .function (strL "\x7b\x22b\x22:2,\x22a\x22:1\x7d")⟩ := by
  have hpa : parseFixture (strL "\x7b\x22a\x22:1,\x22b\x22:2\x7d") =
      some (.obj [(strL "a", .num 1), (strL "b", .num 2)]) := by
    simp [parseFixture, strL]
  have hpb : parseFixture (strL "\x7b\x22b\x22:2,\x22a\x22:1\x7d") =
      some (.obj [(strL "b", .num 2), (strL "a", .num 1)]) := by
    simp [parseFixture, strL]
  have hwf : json_wf (.obj [(strL "a", .num 1), (strL "b", .num 2)]) = true := by
    simp [json_wf, json_wf_fields, strL]
  have hkp : KeyPerm (.obj [(strL "a", .num 1), (strL "b", .num 2)])
      (.obj [(strL "b", .num 2), (strL "a", .num 1)]) := by
    simp only [KeyPerm]
    exact ⟨[(strL "a", .num 1), (strL "b", .num 2)],
      by simp [KeyPermFields, KeyPerm],
      List.Perm.swap (strL "b", Json.num 2) (strL "a", Json.num 1) []⟩
  exact ⟨hpa, hwf,
    (cache_key_canonicalization parseFixture (strL "search_query")
      (strL "call-a") (strL "call-b") (strL "s") (strL "m")
      (strL "\x7b\x22a\x22:1,\x22b\x22:2\x7d")
      (strL "\x7b\x22b\x22:2,\x22a\x22:1\x7d") _ _ hpa hpb hwf hkp).1⟩

/-- Claim C9: the synthesized aborted response has the shape matching the
call's payload variant (custom-tool output for `Custom`, an MCP error outcome
for `Mcp`, a function output for everything else) and carries the requester's
call id; the elapsed seconds are floored at `0.1`; process-execution tools
(`shell`, `container.exec`, `local_shell`, `shell_command`, `unified_exec`)
get the wall-time-then-aborted message, every other tool the generic
elapsed-time message. -/
theorem aborted_response_spec (call : ToolCall) (elapsed : ℚ) :
    (1 / 10 ≤ abort_elapsed_secs elapsed) ∧
    ((aborted_response call (abort_elapsed_secs elapsed)).callId =
      some call.call_id) ∧
    (∀ input, call.payload = .custom input →
      aborted_response call (abort_elapsed_secs elapsed) =
        .customToolCallOutput call.call_id
          (abort_message call (abort_elapsed_secs elapsed))) ∧
    (∀ server tool raw, call.payload = .mcp server tool raw →
      aborted_response call (abort_elapsed_secs elapsed) =
        .mcpToolCallOutput call.call_id
          (.error (abort_message call (abort_elapsed_secs elapsed)))) ∧
    (∀ args, call.payload = .function args →
      aborted_response call (abort_elapsed_secs elapsed) =
        .functionCallOutput call.call_id
          { body := .text (abort_message call (abort_elapsed_secs elapsed)),
            success := none }) ∧
    (∀ params, call.payload = .localShell params →
      aborted_response call (abort_elapsed_secs elapsed) =
        .functionCallOutput call.call_id
          { body := .text (abort_message call (abort_elapsed_secs elapsed)),
            success := none }) ∧
    (call.tool_name ∈ [strL "shell", strL "container.exec", strL "local_shell",
        strL "shell_command", strL "unified_exec"] →
      abort_message call (abort_elapsed_secs elapsed) =
        strL "Wall time: " ++ fmtSecs1 (abort_elapsed_secs elapsed) ++
          strL " seconds\naborted by user") ∧
    (call.tool_name ∉ [strL "shell", strL "container.exec", strL "local_shell",
        strL "shell_command", strL "unified_exec"] →
      abort_message call (abort_elapsed_secs elapsed) =
        strL "aborted by user after " ++ fmtSecs1 (abort_elapsed_secs elapsed) ++
          strL "s") := by
  have hmem : call.tool_name ∈ [strL "shell", strL "container.exec",
      strL "local_shell", strL "shell_command", strL "unified_exec"] ↔
      (call.tool_name = strL "shell" ∨ call.tool_name = strL "container.exec" ∨
        call.tool_name = strL "local_shell" ∨
        call.tool_name = strL "shell_command" ∨
        call.tool_name = strL "unified_exec") := by
    simp
  refine ⟨le_max_right _ _, ?_, ?_, ?_, ?_, ?_, ?_, ?_⟩
  · cases hp : call.payload <;>
      simp [aborted_response, hp, ResponseInputItem.callId]
  · intro input hp
    simp [aborted_response, hp]
  · intro server tool raw hp
    simp [aborted_response, hp]
  · intro args hp
    simp [aborted_response, hp]
  · intro params hp
    simp [aborted_response, hp]
  · intro h
    rw [abort_message, if_pos (hmem.mp h)]
  · intro h
    rw [abort_message, if_neg (fun hc => h (hmem.mpr hc))]

/-- Witness for claim C9: the abort message of a cancelled `shell` call
reports wall time before the aborted-by-user text. -/
theorem aborted_response_spec_witness :
    abort_message
        ⟨strL "shell", strL "c1", .mcp (strL "srv") (strL "tl") (strL "x")⟩
        (abort_elapsed_secs 0) =
      strL "Wall time: " ++ fmtSecs1 (abort_elapsed_secs 0) ++
        strL " seconds\naborted by user" :=
  (aborted_response_spec
    ⟨strL "shell", strL "c1", .mcp (strL "srv") (strL "tl") (strL "x")⟩
    0).2.2.2.2.2.2.1 (by decide)

/-! ## Claim C10 -/

/-- Claim C10: every tool name classified as session-cacheable is also
classified as turn-cacheable, so the session-cache allow-list is a subset of
the turn-cache allow-list. -/
theorem session_cache_subset_turn_cache (tool_name : Str)
    (h : tool_supports_session_cache tool_name = true) :
    tool_supports_turn_cache tool_name = true := by
  simp only [tool_supports_session_cache, decide_eq_true_eq] at h
  simp only [tool_supports_turn_cache, decide_eq_true_eq]
  tauto

/-- Witness for claim C10: the subset property applied at `weather`, which the
code's own tests mark as session-cacheable. -/
theorem session_cache_subset_turn_cache_witness :
    tool_supports_session_cache (strL "weather") = true ∧
      tool_supports_turn_cache (strL "weather") = true :=
  ⟨by decide, session_cache_subset_turn_cache (strL "weather") (by decide)⟩
